import Mathlib

/-
Shallow embedding of the CourseScheduler core (CourseScheduler.tsx):
the time model, block derivation, overlap test, section indexer and its
candidate ordering, the backtracking schedule solver, the conflict
detector, manual override, snapshot ingestion, and the prerequisite /
dependent graph traversals.  Machine integers of the source (JS numbers
holding small integer minute counts and seat counts) are modelled as Int;
JS strings as Lean String; JS null/undefined as Option; JS Set and Map
as lists with membership semantics, keeping insertion order.
-/

namespace CourseSched

/-- The five weekdays the scheduler uses (the source's DAYS constant;
weekend flags of a meeting time are ignored by block derivation). -/
inductive Day where
  | monday | tuesday | wednesday | thursday | friday
deriving DecidableEq, Repr

/-- Source: `const DAYS = ["monday", ..., "friday"]`. -/
def DAYS : List Day := [.monday, .tuesday, .wednesday, .thursday, .friday]

/-- One `meetingTime` object: begin/end time strings (nullable), one flag
per weekday, and descriptive metadata carried through to blocks. -/
structure MeetingTime where
  beginTime : Option String
  endTime : Option String
  monday : Bool
  tuesday : Bool
  wednesday : Bool
  thursday : Bool
  friday : Bool
  room : Option String := none
  buildingDescription : Option String := none
  meetingScheduleType : Option String := none
deriving DecidableEq, Repr

/-- One entry of `meetingsFaculty`; the source guards `if (!mt) return`,
so the meeting time is nullable. -/
structure MeetingRecord where
  meetingTime : Option MeetingTime
deriving DecidableEq, Repr

/-- A course-section record (the fields of `CourseRecord` the core logic
reads: identifier, title key parts, open flag, seats, meetings). -/
structure CourseRecord where
  courseReferenceNumber : String
  subject : String
  courseNumber : String
  courseTitle : String
  openSection : Bool
  seatsAvailable : Option Int := none
  meetingsFaculty : List MeetingRecord := []
deriving DecidableEq, Repr

/-- JS `parseInt(s, 10)`: skip leading whitespace, read an optional sign,
then the longest run of decimal digits (trailing characters are ignored);
NaN — here `none` — when that run is empty. -/
def parseIntJS (cs : List Char) : Option Int :=
  let cs := cs.dropWhile (fun c => c.isWhitespace)
  match cs with
  | '-' :: rest => (digitsVal rest).map (fun n => -(n : Int))
  | '+' :: rest => (digitsVal rest).map (fun n => (n : Int))
  | rest => (digitsVal rest).map (fun n => (n : Int))
where
  /-- Value of the leading digit run, `none` when there is none. -/
  digitsVal (cs : List Char) : Option Nat :=
    let ds := cs.takeWhile (fun c => c.isDigit)
    if ds.isEmpty then none
    else some (ds.foldl (fun acc c => 10 * acc + (c.toNat - '0'.toNat)) 0)

/-- JS `t.slice(0, -2)`: all characters but the last two. -/
def slicePrefix (s : String) : List Char := s.data.take (s.data.length - 2)

/-- JS `t.slice(-2)`: the last two characters (for strings of length ≥ 2). -/
def sliceLast2 (s : String) : List Char := s.data.drop (s.data.length - 2)

/-- Source `timeStrToMinutes`: `null`/short strings parse to `null`;
otherwise hours are parsed from everything before the last two characters,
minutes from the last two, and the result is `hh * 60 + mm` with no range
validation on either part. -/
def timeStrToMinutes (t : Option String) : Option Int :=
  match t with
  | none => none
  | some s =>
    if s.length < 3 then none
    else
      match parseIntJS (slicePrefix s), parseIntJS (sliceLast2 s) with
      | some hh, some mm => some (hh * 60 + mm)
      | _, _ => none

/-- A derived weekly block: day-scoped interval plus back-references to
the owning section (title, CRN) and carried-through metadata. -/
structure Block where
  day : Day
  start : Int
  «end» : Int
  title : String
  crn : String
  room : Option String
  building : Option String
  type : Option String
  «open» : Bool
deriving DecidableEq, Repr

/-- The weekday flag of a meeting time, the source's `(mt as any)[d]`. -/
def dayFlag (mt : MeetingTime) : Day → Bool
  | .monday => mt.monday
  | .tuesday => mt.tuesday
  | .wednesday => mt.wednesday
  | .thursday => mt.thursday
  | .friday => mt.friday

/-- Source `blocksForSection`: for each meeting entry with a (non-null)
meeting time whose begin and end both parse, emit one block per flagged
weekday, in meeting-entry order × day order. -/
def blocksForSection (rec : CourseRecord) : List Block :=
  rec.meetingsFaculty.flatMap (fun m =>
    match m.meetingTime with
    | none => []
    | some mt =>
      match timeStrToMinutes mt.beginTime, timeStrToMinutes mt.endTime with
      | some s, some e =>
        (DAYS.filter (fun d => dayFlag mt d)).map (fun d =>
          { day := d, start := s, «end» := e, title := rec.courseTitle,
            crn := rec.courseReferenceNumber, room := mt.room,
            building := mt.buildingDescription,
            type := mt.meetingScheduleType, «open» := rec.openSection })
      | _, _ => [])

/-- Source `overlap`: same day and strictly intersecting half-open
intervals. -/
def overlap (a b : Block) : Bool :=
  a.day == b.day && decide (a.start < b.«end») && decide (b.start < a.«end»)

/-- Source `isCompatible`: no candidate block overlaps a chosen block. -/
def isCompatible (chosen candidate : List Block) : Bool :=
  candidate.all (fun b => chosen.all (fun c => !overlap b c))

/-- JS `String.prototype.trim`: strip whitespace from both ends. -/
def trimJS (s : String) : String :=
  String.mk
    (((s.data.dropWhile Char.isWhitespace).reverse.dropWhile
      Char.isWhitespace).reverse)

/-- The title key grouping sections, the source's
`` `${r.subject}${r.courseNumber} - ${r.courseTitle}`.trim() ``. -/
def titleKey (r : CourseRecord) : String :=
  trimJS (r.subject ++ r.courseNumber ++ " - " ++ r.courseTitle)

/-- Seats with the source's `?? -1` default for a missing field. -/
def seatsOrNeg (r : CourseRecord) : Int := r.seatsAvailable.getD (-1)

/-- The earliest block start of a section, `99999` when it has no blocks
(the source's `aStarts.length ? Math.min(...aStarts) : 99999`). -/
def minStart (r : CourseRecord) : Int :=
  match (blocksForSection r).map (fun b => b.start) with
  | [] => 99999
  | x :: xs => xs.foldl min x

/-- The comparator of the source's per-title `arr.sort`: open first, then
more seats, then earlier minimum block start. -/
def cmpSections (a b : CourseRecord) : Int :=
  if a.openSection != b.openSection then (if a.openSection then -1 else 1)
  else
    let sa := seatsOrNeg a
    let sb := seatsOrNeg b
    if sb != sa then sb - sa
    else minStart a - minStart b

/-- Stable insertion of one record into a list sorted by `cmpSections`
(an earlier record stays before a later record comparing equal, as with
JS stable `Array.sort`). -/
def insertCmp (x : CourseRecord) : List CourseRecord → List CourseRecord
  | [] => [x]
  | y :: ys => if cmpSections x y ≤ 0 then x :: y :: ys else y :: insertCmp x ys

/-- Stable sort by `cmpSections`, modelling JS `Array.sort` (stable, with
a consistent comparator). -/
def sortSections : List CourseRecord → List CourseRecord
  | [] => []
  | x :: xs => insertCmp x (sortSections xs)

/-- The Candidate List of one title key: the source's `titleToSections`
map entry — records filtered by the open/closed flag, grouped by title
key in record order, then sorted by `cmpSections`. -/
def sectionsForTitle (records : List CourseRecord) (includeClosed : Bool)
    (key : String) : List CourseRecord :=
  sortSections ((records.filter (fun r => includeClosed || r.openSection)).filter
    (fun r => titleKey r == key))

/-- First-occurrence deduplication, modelling `new Set(list)` (JS sets
keep insertion order). -/
def setOfList (l : List String) : List String :=
  l.foldl (fun acc x => if acc.contains x then acc else acc ++ [x]) []

/-- The source's `titles` memo: distinct title keys of the eligible
records.  The source sorts them with `localeCompare`, a locale-dependent
display order; we model that display sort with the default character
order, which plays no part in any claim about the key set. -/
def titles (records : List CourseRecord) (includeClosed : Bool) : List String :=
  (setOfList ((records.filter (fun r => includeClosed || r.openSection)).map
    titleKey)).mergeSort (fun a b => !decide (b < a))

/-- An assignment: title key → chosen section, in insertion order
(the source's `chosen` object / `solution` record). -/
abbrev Assignment := List (String × CourseRecord)

/-- The source's `dfs` over the remaining titles, carrying the blocks of
the sections already placed: at each title try the candidates in order;
a candidate with no blocks is skipped (`if (!blocks.length) continue`);
a compatible candidate is placed and the search recurses, undoing and
trying the next candidate when the suffix fails; the first complete
assignment wins. -/
def dfs (P : String → List CourseRecord) :
    List String → List Block → Option Assignment
  | [], _ => some []
  | t :: rest, chosenBlocks =>
    (P t).findSome? (fun sec =>
      let blocks := blocksForSection sec
      if blocks.isEmpty then none
      else if isCompatible chosenBlocks blocks then
        match dfs P rest (chosenBlocks ++ blocks) with
        | some asn => some ((t, sec) :: asn)
        | none => none
      else none)

/-- Source `findConflicts`: over the flattened block list of the assigned
sections, every unordered pair is tested with `overlap`, and both CRNs of
each overlapping pair are collected (a JS `Set`; we keep a list and state
the claims through membership). -/
def pairConflicts : List Block → List String
  | [] => []
  | b :: rest =>
    ((rest.filter (fun c => overlap b c)).flatMap (fun c => [b.crn, c.crn]))
      ++ pairConflicts rest

/-- `findConflicts` applied to the values of an assignment. -/
def findConflicts (sol : List CourseRecord) : List String :=
  pairConflicts (sol.flatMap blocksForSection)

/-- The outcome of `generateSchedule`: the "Select at least one course."
path, the "No conflict-free combination found." path, or a generated
schedule with its conflict set. -/
inductive ScheduleResult where
  | noTitles
  | infeasible
  | success (asn : Assignment) (conflicts : List String)
deriving DecidableEq, Repr

/-- Source `generateSchedule`: keep only selected titles with a non-empty
candidate list, bail out when none remain, then run `dfs` from an empty
partial assignment; on success the conflict detector runs on the result. -/
def generateSchedule (P : String → List CourseRecord)
    (selectedTitles : List String) : ScheduleResult :=
  let targetTitles := selectedTitles.filter (fun t => !(P t).isEmpty)
  if targetTitles.isEmpty then .noTitles
  else
    match dfs P targetTitles [] with
    | some asn => .success asn (findConflicts (asn.map Prod.snd))
    | none => .infeasible

/-- The component state the claims touch: the section snapshot, the
open/closed filter, the current solution, conflict set and status line. -/
structure AppState where
  records : List CourseRecord
  includeClosed : Bool
  solution : Option Assignment
  conflictCRNs : List String
  status : String
deriving DecidableEq, Repr

/-- JS `{ ...solution, [title]: pick }`: replace the entry of `title` in
place when the key exists, append it otherwise. -/
def updateSolution (sol : Assignment) (title : String)
    (pick : CourseRecord) : Assignment :=
  if sol.any (fun p => p.1 == title) then
    sol.map (fun p => if p.1 == title then (title, pick) else p)
  else sol ++ [(title, pick)]

/-- Source `overrideSection`: without a solution, do nothing; look the CRN
up in the title's current candidate list; when absent, do nothing;
otherwise replace that one entry and recompute the conflicts from scratch. -/
def overrideSection (st : AppState) (title crn : String) : AppState :=
  match st.solution with
  | none => st
  | some sol =>
    let options := sectionsForTitle st.records st.includeClosed title
    match options.find? (fun s => s.courseReferenceNumber == crn) with
    | none => st
    | some pick =>
      let next := updateSolution sol title pick
      let conf := findConflicts (next.map Prod.snd)
      { st with
        solution := some next
        conflictCRNs := conf
        status := if conf.isEmpty then "Manual override applied."
          else "Manual override applied (conflicts highlighted)." }

/-- The possible shapes of an uploaded snapshot, the source's
`Array.isArray(raw?.data) ? raw.data : Array.isArray(raw) ? raw : []`:
a wrapper object with a `data` array, a bare array, or anything else. -/
inductive RawJson where
  | wrapper (data : List CourseRecord)
  | array (l : List CourseRecord)
  | other
deriving DecidableEq, Repr

/-- The record list `ingestJson` extracts from an upload. -/
def extractRecords : RawJson → List CourseRecord
  | .wrapper data => data
  | .array l => l
  | .other => []

/-- Source `ingestJson`: with no usable records, only the status changes
to the "no records" signal; otherwise the snapshot replaces the records
and the solution and conflict set are cleared. -/
def ingestJson (st : AppState) (raw : RawJson) : AppState :=
  let arr := extractRecords raw
  if arr.length == 0 then
    { st with status := "JSON parsed, but no records found." }
  else
    { st with
      records := arr
      solution := none
      conflictCRNs := []
      status := "Loaded " ++ toString arr.length ++ " sections from JSON" }

/-! The prerequisite graph engine.  A requires-map is an association list
from a normalized course code to its listed direct prerequisites (the
source's `prereqMap`, a JS `Map` of `Set`s: unique keys in insertion
order).  The reverse adjacency is derived from it (`dependentsAdj`). -/

/-- `m.get(q) ?? []`: the adjacency of `q`, empty when `q` is absent. -/
def adjOf (g : List (String × List String)) (q : String) : List String :=
  match g.find? (fun p => p.1 == q) with
  | some p => p.2
  | none => []

/-- The keys of a requires-map. -/
def keysOf (g : List (String × List String)) : List String := g.map Prod.fst

theorem adjOf_eq_nil_of_not_mem_keys {g : List (String × List String)}
    {q : String} (h : q ∉ keysOf g) : adjOf g q = [] := by
  unfold adjOf
  have hf : g.find? (fun p => p.1 == q) = none := by
    rw [List.find?_eq_none]
    intro x hx
    simp only [beq_iff_eq]
    intro hxq
    exact h (hxq ▸ List.mem_map_of_mem Prod.fst hx)
  rw [hf]

theorem length_filter_lt_length_filter {α : Type} (l : List α)
    (p q : α → Bool) (x : α) (hx : x ∈ l) (hp : p x = true)
    (hq : q x = false) (himp : ∀ y, q y = true → p y = true) :
    (l.filter q).length < (l.filter p).length := by
  induction l with
  | nil => cases hx
  | cons a l ih =>
    rcases List.mem_cons.1 hx with rfl | hx'
    · have hmono : (l.filter q).length ≤ (l.filter p).length :=
        (List.monotone_filter_right l himp).length_le
      simp only [List.filter_cons, hp, hq, if_pos, if_neg]
      simp only [Bool.false_eq_true, if_false, if_true, List.length_cons]
      omega
    · have ih' := ih hx'
      cases hqa : q a with
      | false =>
        cases hpa : p a with
        | false => simpa [List.filter_cons, hqa, hpa] using ih'
        | true =>
          simp only [List.filter_cons, hqa, hpa, Bool.false_eq_true, if_false,
            if_true, List.length_cons]
          omega
      | true =>
        have hpa := himp a hqa
        simp only [List.filter_cons, hqa, hpa, if_true, List.length_cons]
        omega

theorem contains_eq_true_iff (l : List String) (x : String) :
    l.contains x = true ↔ x ∈ l := List.elem_iff

theorem contains_eq_false_iff (l : List String) (x : String) :
    l.contains x = false ↔ x ∉ l := by
  rw [Bool.eq_false_iff]
  exact not_congr List.elem_iff

theorem contains_append_singleton (out : List String) (cur n : String)
    (hne : n ≠ cur) : (out ++ [cur]).contains n = out.contains n := by
  by_cases hno : n ∈ out
  · rw [(contains_eq_true_iff _ _).2 (List.mem_append_left _ hno),
      (contains_eq_true_iff _ _).2 hno]
  · rw [(contains_eq_false_iff _ _).2 hno, (contains_eq_false_iff _ _).2]
    intro hmem
    rcases List.mem_append.1 hmem with h | h
    · exact hno h
    · exact hne (List.mem_singleton.1 h)

/-- The visited-set-guarded traversal shared by `allPrereqAncestors` and
`allDependents` (the source's `while (stack.length)` loop).  The JS array
pops and pushes at its end; the Lean stack keeps the top at its head, so
pushed adjacency lists arrive reversed.  `out` is the visited set, kept
in insertion order.  Termination: each step either visits a new key of
the map or shortens the stack. -/
def walk (g : List (String × List String)) :
    List String → List String → List String
  | [], out => out
  | cur :: stack, out =>
    if out.contains cur then walk g stack out
    else walk g ((adjOf g cur).reverse ++ stack) (out ++ [cur])
termination_by stack out =>
  (((keysOf g).filter (fun n => !out.contains n)).length, stack.length)
decreasing_by
  · apply Prod.Lex.right
    simp
  · rename_i hcur
    by_cases hk : cur ∈ keysOf g
    · apply Prod.Lex.left
      apply length_filter_lt_length_filter (keysOf g) _ _ cur hk
      · simp at hcur
        simp [hcur]
      · rw [Bool.not_eq_false', (contains_eq_true_iff _ _).2]
        exact List.mem_append_right _ (List.mem_singleton_self _)
      · intro y hy
        rw [Bool.not_eq_true', contains_eq_false_iff] at hy
        rw [Bool.not_eq_true', contains_eq_false_iff]
        intro hmem
        exact hy (List.mem_append_left _ hmem)
    · rw [adjOf_eq_nil_of_not_mem_keys hk]
      have hfix : ((keysOf g).filter (fun n => !(out ++ [cur]).contains n)) =
          ((keysOf g).filter (fun n => !out.contains n)) := by
        apply List.filter_congr
        intro n hn
        have hne : n ≠ cur := by rintro rfl; exact hk hn
        rw [contains_append_singleton out cur n hne]
      rw [hfix]
      apply Prod.Lex.right
      simp

/-- Source `directPrereqs`: `new Set(prereqMap.get(q) ?? [])`. -/
def directPrereqs (g : List (String × List String)) (q : String) : List String :=
  setOfList (adjOf g q)

/-- Source `allPrereqAncestors`: walk the requires-edges upward starting
from the direct prerequisites of `q` (the initial JS stack is a copy of
the adjacency; its top is the adjacency's last element). -/
def allPrereqAncestors (g : List (String × List String)) (q : String) :
    List String :=
  walk g (adjOf g q).reverse []

/-- Source `indirectPrereqs`: the ancestor set minus the direct set. -/
def indirectPrereqs (g : List (String × List String)) (q : String) :
    List String :=
  (allPrereqAncestors g q).filter (fun c => !(directPrereqs g q).contains c)

/-- One `m.get(r).add(course)` step of the source's inverted-graph build:
append the key when new, append the value to its set when unseen. -/
def addEdge (m : List (String × List String)) (k v : String) :
    List (String × List String) :=
  if m.any (fun p => p.1 == k) then
    m.map (fun p =>
      if p.1 == k then (p.1, if p.2.contains v then p.2 else p.2 ++ [v]) else p)
  else m ++ [(k, [v])]

/-- Source `dependentsAdj`: the transpose of the requires-map — for every
entry `(course, reqs)` and every `r ∈ reqs`, add `course` to `r`'s set. -/
def dependentsAdj (g : List (String × List String)) :
    List (String × List String) :=
  g.foldl (fun m cr => cr.2.foldl (fun m r => addEdge m r cr.1) m) []

/-- Source `directDependents`: `new Set(dependentsAdj.get(q) ?? [])`. -/
def directDependents (g : List (String × List String)) (q : String) :
    List String :=
  setOfList (adjOf (dependentsAdj g) q)

/-- Source `allDependents`: the same guarded walk over the reverse
adjacency, starting from the direct dependents of `q`. -/
def allDependents (g : List (String × List String)) (q : String) :
    List String :=
  walk (dependentsAdj g) (adjOf (dependentsAdj g) q).reverse []

/-- Source `indirectDependents`: the dependent set minus the direct set. -/
def indirectDependents (g : List (String × List String)) (q : String) :
    List String :=
  (allDependents g q).filter (fun c => !(directDependents g q).contains c)

/-- Reachability along the adjacency of a requires-map: `ReachesFrom g x z`
holds when `z` is `x` itself or can be reached from `x` by following one
or more adjacency edges. -/
inductive ReachesFrom (g : List (String × List String)) : String → String → Prop
  | refl (x : String) : ReachesFrom g x x
  | head {x y z : String} : y ∈ adjOf g x → ReachesFrom g y z →
      ReachesFrom g x z

theorem mem_setOfList (l : List String) (x : String) :
    x ∈ setOfList l ↔ x ∈ l := by
  have general : ∀ (l acc : List String),
      x ∈ l.foldl (fun acc x => if acc.contains x then acc else acc ++ [x]) acc
        ↔ x ∈ acc ∨ x ∈ l := by
    intro l
    induction l with
    | nil => intro acc; simp [List.foldl]
    | cons a l ih =>
      intro acc
      rw [List.foldl_cons, ih]
      by_cases ha : acc.contains a
      · have ha' := (contains_eq_true_iff _ _).1 ha
        simp only [ha, if_true, List.mem_cons]
        constructor
        · rintro (h | h)
          · exact Or.inl h
          · exact Or.inr (Or.inr h)
        · rintro (h | rfl | h)
          · exact Or.inl h
          · exact Or.inl ha'
          · exact Or.inr h
      · rw [if_neg ha]
        simp only [List.mem_append, List.mem_singleton, List.mem_cons]
        tauto
  exact (general l []).trans (by simp)

theorem mem_walk_of_mem_out (g : List (String × List String)) :
    ∀ stack out : List String, ∀ c, c ∈ out → c ∈ walk g stack out := by
  intro stack out
  induction stack, out using walk.induct g with
  | case1 out => intro c hc; rw [walk]; exact hc
  | case2 cur stack out hcont ih =>
    intro c hc
    rw [walk, if_pos hcont]
    exact ih c hc
  | case3 cur stack out hcont ih =>
    intro c hc
    rw [walk, if_neg hcont]
    exact ih c (List.mem_append_left _ hc)

theorem walk_sound (g : List (String × List String)) :
    ∀ stack out : List String, ∀ c, c ∈ walk g stack out →
      c ∈ out ∨ ∃ s, s ∈ stack ∧ ReachesFrom g s c := by
  intro stack out
  induction stack, out using walk.induct g with
  | case1 out =>
    intro c hc
    rw [walk] at hc
    exact Or.inl hc
  | case2 cur stack out hcont ih =>
    intro c hc
    rw [walk, if_pos hcont] at hc
    rcases ih c hc with h | ⟨s, hs, hr⟩
    · exact Or.inl h
    · exact Or.inr ⟨s, List.mem_cons_of_mem _ hs, hr⟩
  | case3 cur stack out hcont ih =>
    intro c hc
    rw [walk, if_neg hcont] at hc
    rcases ih c hc with h | ⟨s, hs, hr⟩
    · rcases List.mem_append.1 h with h | h
      · exact Or.inl h
      · have hc' : c = cur := List.mem_singleton.1 h
        subst hc'
        exact Or.inr ⟨c, List.mem_cons_self _ _, ReachesFrom.refl c⟩
    · rcases List.mem_append.1 hs with h | h
      · exact Or.inr ⟨cur, List.mem_cons_self _ _,
          ReachesFrom.head (List.mem_reverse.1 h) hr⟩
      · exact Or.inr ⟨s, List.mem_cons_of_mem _ h, hr⟩

theorem mem_of_reaches_of_closed (g : List (String × List String))
    (out : List String)
    (hclosed : ∀ x ∈ out, ∀ y ∈ adjOf g x, y ∈ out) :
    ∀ s c, s ∈ out → ReachesFrom g s c → c ∈ out := by
  intro s c hs hr
  induction hr with
  | refl x => exact hs
  | head hadj _ ih => exact ih (hclosed _ hs _ hadj)

theorem walk_complete (g : List (String × List String)) :
    ∀ stack out : List String,
      (∀ x ∈ out, ∀ y ∈ adjOf g x, y ∈ out ∨ y ∈ stack) →
      ∀ s c, (s ∈ stack ∨ s ∈ out) → ReachesFrom g s c →
        c ∈ walk g stack out := by
  intro stack out
  induction stack, out using walk.induct g with
  | case1 out =>
    intro hinv s c hs hr
    rw [walk]
    rcases hs with h | h
    · cases h
    · exact mem_of_reaches_of_closed g out
        (fun x hx y hy => (hinv x hx y hy).resolve_right
          (fun hmem => by cases hmem))
        s c h hr
  | case2 cur stack out hcont ih =>
    intro hinv s c hs hr
    rw [walk, if_pos hcont]
    have hcur : cur ∈ out := (contains_eq_true_iff _ _).1 hcont
    refine ih ?_ s c ?_ hr
    · intro x hx y hy
      rcases hinv x hx y hy with h | h
      · exact Or.inl h
      · rcases List.mem_cons.1 h with rfl | h
        · exact Or.inl hcur
        · exact Or.inr h
    · rcases hs with h | h
      · rcases List.mem_cons.1 h with rfl | h
        · exact Or.inr hcur
        · exact Or.inl h
      · exact Or.inr h
  | case3 cur stack out hcont ih =>
    intro hinv s c hs hr
    rw [walk, if_neg hcont]
    refine ih ?_ s c ?_ hr
    · intro x hx y hy
      rcases List.mem_append.1 hx with hx | hx
      · rcases hinv x hx y hy with h | h
        · exact Or.inl (List.mem_append_left _ h)
        · rcases List.mem_cons.1 h with rfl | h
          · exact Or.inl (List.mem_append_right _ (List.mem_singleton_self _))
          · exact Or.inr (List.mem_append_right _ h)
      · have hxc : x = cur := List.mem_singleton.1 hx
        subst hxc
        exact Or.inr (List.mem_append_left _ (List.mem_reverse.2 hy))
    · rcases hs with h | h
      · rcases List.mem_cons.1 h with rfl | h
        · exact Or.inr (List.mem_append_right _ (List.mem_singleton_self _))
        · exact Or.inl (List.mem_append_right _ h)
      · exact Or.inr (List.mem_append_left _ h)

theorem walk_nodup (g : List (String × List String)) :
    ∀ stack out : List String, out.Nodup → (walk g stack out).Nodup := by
  intro stack out
  induction stack, out using walk.induct g with
  | case1 out => intro h; rw [walk]; exact h
  | case2 cur stack out hcont ih =>
    intro h
    rw [walk, if_pos hcont]
    exact ih h
  | case3 cur stack out hcont ih =>
    intro h
    rw [walk, if_neg hcont]
    refine ih ?_
    rw [List.nodup_append]
    refine ⟨h, List.nodup_singleton _, ?_⟩
    intro a ha hb
    rw [List.mem_singleton] at hb
    subst hb
    exact hcont ((contains_eq_true_iff _ _).2 ha)

theorem mem_allPrereqAncestors (g : List (String × List String))
    (q c : String) :
    c ∈ allPrereqAncestors g q ↔
      ∃ d, d ∈ adjOf g q ∧ ReachesFrom g d c := by
  constructor
  · intro h
    rcases walk_sound g _ _ c h with h | ⟨s, hs, hr⟩
    · cases h
    · exact ⟨s, List.mem_reverse.1 hs, hr⟩
  · rintro ⟨d, hd, hr⟩
    exact walk_complete g _ _ (by intro x hx; cases hx) d c
      (Or.inl (List.mem_reverse.2 hd)) hr

theorem mem_allDependents (g : List (String × List String)) (q c : String) :
    c ∈ allDependents g q ↔
      ∃ d, d ∈ adjOf (dependentsAdj g) q ∧
        ReachesFrom (dependentsAdj g) d c := by
  constructor
  · intro h
    rcases walk_sound (dependentsAdj g) _ _ c h with h | ⟨s, hs, hr⟩
    · cases h
    · exact ⟨s, List.mem_reverse.1 hs, hr⟩
  · rintro ⟨d, hd, hr⟩
    exact walk_complete (dependentsAdj g) _ _ (by intro x hx; cases hx) d c
      (Or.inl (List.mem_reverse.2 hd)) hr

theorem all_bool_and (l : List Block) (p q : Block → Bool) :
    (l.all fun x => p x && q x) = (l.all p && l.all q) := by
  induction l with
  | nil => rfl
  | cons a l ih =>
    cases hpa : p a <;> cases hqa : q a <;>
      simp [List.all_cons, hpa, hqa, ih]

theorem isCompatible_append_right (cb xs ys : List Block) :
    isCompatible cb (xs ++ ys) = (isCompatible cb xs && isCompatible cb ys) := by
  simp [isCompatible, List.all_append]

theorem isCompatible_append_left (cb bs ys : List Block) :
    isCompatible (cb ++ bs) ys = (isCompatible cb ys && isCompatible bs ys) := by
  unfold isCompatible
  simp only [List.all_append]
  exact all_bool_and ys _ _

theorem isCompatible_of_mem_flatMap (cb : List Block) (asn : Assignment)
    (x : String × CourseRecord) (hx : x ∈ asn)
    (h : isCompatible cb (asn.flatMap fun p => blocksForSection p.2) = true) :
    isCompatible cb (blocksForSection x.2) = true := by
  induction asn with
  | nil => cases hx
  | cons a l ih =>
    rw [show ((a :: l).flatMap fun p => blocksForSection p.2) =
        blocksForSection a.2 ++ (l.flatMap fun p => blocksForSection p.2)
      from rfl, isCompatible_append_right, Bool.and_eq_true] at h
    rcases List.mem_cons.1 hx with rfl | hx'
    · exact h.1
    · exact ih hx' h.2

/-- Soundness of the backtracking search: a returned assignment covers the
requested titles in order, takes each section from its title's candidate
list, never takes a block-free section, keeps all its blocks compatible
with the incoming partial blocks, and keeps the blocks of distinct chosen
sections pairwise compatible. -/
theorem dfs_sound (P : String → List CourseRecord) :
    ∀ (ts : List String) (cb : List Block) (asn : Assignment),
      dfs P ts cb = some asn →
      asn.map Prod.fst = ts ∧
      (∀ p ∈ asn, p.2 ∈ P p.1 ∧ blocksForSection p.2 ≠ []) ∧
      isCompatible cb (asn.flatMap fun p => blocksForSection p.2) = true ∧
      (asn.map fun p => blocksForSection p.2).Pairwise
        (fun xs ys => isCompatible xs ys = true) := by
  intro ts
  induction ts with
  | nil =>
    intro cb asn h
    rw [dfs] at h
    injection h with h
    subst h
    refine ⟨rfl, ?_, ?_, ?_⟩
    · intro p hp; cases hp
    · simp [isCompatible]
    · exact List.Pairwise.nil
  | cons t rest ih =>
    intro cb asn h
    rw [dfs] at h
    obtain ⟨sec, hsec, hf⟩ := List.exists_of_findSome?_eq_some h
    dsimp only at hf
    by_cases hbe : (blocksForSection sec).isEmpty = true
    · rw [if_pos hbe] at hf; cases hf
    · rw [if_neg hbe] at hf
      by_cases hcomp : isCompatible cb (blocksForSection sec) = true
      · rw [if_pos hcomp] at hf
        cases hrec : dfs P rest (cb ++ blocksForSection sec) with
        | none => rw [hrec] at hf; cases hf
        | some asn' =>
          rw [hrec] at hf
          injection hf with hf
          subst hf
          obtain ⟨hmap, hmem, hcompat, hpw⟩ := ih _ _ hrec
          have hsplit :
              isCompatible cb
                  (asn'.flatMap fun p => blocksForSection p.2) = true ∧
              isCompatible (blocksForSection sec)
                  (asn'.flatMap fun p => blocksForSection p.2) = true := by
            have := hcompat
            rw [isCompatible_append_left, Bool.and_eq_true] at this
            exact this
          refine ⟨by simp [hmap], ?_, ?_, ?_⟩
          · intro p hp
            rcases List.mem_cons.1 hp with rfl | hp'
            · exact ⟨hsec, by simpa [List.isEmpty_iff] using hbe⟩
            · exact hmem p hp'
          · rw [show (((t, sec) :: asn').flatMap fun p => blocksForSection p.2) =
                blocksForSection sec ++ (asn'.flatMap fun p => blocksForSection p.2)
              from rfl, isCompatible_append_right, Bool.and_eq_true]
            exact ⟨hcomp, hsplit.1⟩
          · rw [List.map_cons]
            refine List.Pairwise.cons ?_ hpw
            intro ys hys
            obtain ⟨p, hp, rfl⟩ := List.mem_map.1 hys
            exact isCompatible_of_mem_flatMap _ _ p hp hsplit.2
      · rw [if_neg hcomp] at hf; cases hf

/-- The search skips block-free candidates outright: a position all of
whose candidates derive no blocks fails. -/
theorem dfs_none_of_all_blockless (P : String → List CourseRecord)
    (t : String) (rest : List String) (cb : List Block)
    (h : ∀ sec ∈ P t, blocksForSection sec = []) :
    dfs P (t :: rest) cb = none := by
  rw [dfs]
  rw [List.findSome?_eq_none_iff]
  intro sec hsec
  dsimp only
  rw [if_pos]
  rw [List.isEmpty_iff]
  exact h sec hsec

theorem blocksForSection_eq_nil_of_unparseable (rec : CourseRecord)
    (h : ∀ m ∈ rec.meetingsFaculty, ∀ mt, m.meetingTime = some mt →
      timeStrToMinutes mt.beginTime = none ∨ timeStrToMinutes mt.endTime = none) :
    blocksForSection rec = [] := by
  unfold blocksForSection
  apply List.flatMap_eq_nil_iff.mpr
  intro m hm
  dsimp only
  cases hmt : m.meetingTime with
  | none => rfl
  | some mt =>
    rcases h m hm mt hmt with hb | he
    · cases he' : timeStrToMinutes mt.endTime <;> simp [hb, he']
    · cases hb' : timeStrToMinutes mt.beginTime <;> simp [hb', he]

theorem findConflicts_drop_blockless (pre post : List CourseRecord)
    (rec : CourseRecord) (h : blocksForSection rec = []) :
    findConflicts (pre ++ rec :: post) = findConflicts (pre ++ post) := by
  unfold findConflicts
  rw [List.flatMap_append, List.flatMap_append,
    show (rec :: post).flatMap blocksForSection =
      blocksForSection rec ++ post.flatMap blocksForSection from rfl, h]
  rfl

/-- Rank of the open/closed flag: open sections first. -/
def openRank (r : CourseRecord) : Int := if r.openSection then 0 else 1

/-- Modelled from the spec's candidate-ordering words (§4.3): open before
closed, then more seats (missing seats as −1), then earlier minimum block
start — with the source's concrete sentinel `99999` (via `minStart`) in
place of the spec's "maximum possible value" for block-less sections. -/
def specCandidateLe (a b : CourseRecord) : Prop :=
  openRank a < openRank b ∨
    (openRank a = openRank b ∧
      (seatsOrNeg b < seatsOrNeg a ∨
        (seatsOrNeg a = seatsOrNeg b ∧ minStart a ≤ minStart b)))

theorem cmpSections_le_iff (a b : CourseRecord) :
    cmpSections a b ≤ 0 ↔ specCandidateLe a b := by
  unfold cmpSections specCandidateLe openRank
  cases hoa : a.openSection <;> cases hob : b.openSection <;>
    simp only [hoa, hob, bne_iff_ne, ne_eq, Bool.true_eq_false, Bool.false_eq_true,
      not_false_eq_true, not_true_eq_false, if_true, if_false, ite_true, ite_false] <;>
    generalize seatsOrNeg a = sa <;> generalize seatsOrNeg b = sb <;>
    generalize minStart a = ma <;> generalize minStart b = mb
  · split_ifs with h1
    · simp only [true_and]
      omega
    · simp only [true_and]
      omega
  · omega
  · omega
  · split_ifs with h1
    · simp only [true_and]
      omega
    · simp only [true_and]
      omega

theorem cmpSections_le_total (a b : CourseRecord) :
    cmpSections a b ≤ 0 ∨ cmpSections b a ≤ 0 := by
  rw [cmpSections_le_iff, cmpSections_le_iff]
  unfold specCandidateLe
  generalize openRank a = oa
  generalize openRank b = ob
  generalize seatsOrNeg a = sa
  generalize seatsOrNeg b = sb
  generalize minStart a = ma
  generalize minStart b = mb
  omega

theorem cmpSections_le_trans {a b c : CourseRecord}
    (hab : cmpSections a b ≤ 0) (hbc : cmpSections b c ≤ 0) :
    cmpSections a c ≤ 0 := by
  rw [cmpSections_le_iff] at hab hbc ⊢
  unfold specCandidateLe at hab hbc ⊢
  generalize openRank a = oa at hab hbc ⊢
  generalize openRank b = ob at hab hbc ⊢
  generalize openRank c = oc at hab hbc ⊢
  generalize seatsOrNeg a = sa at hab hbc ⊢
  generalize seatsOrNeg b = sb at hab hbc ⊢
  generalize seatsOrNeg c = sc at hab hbc ⊢
  generalize minStart a = ma at hab hbc ⊢
  generalize minStart b = mb at hab hbc ⊢
  generalize minStart c = mc at hab hbc ⊢
  omega

theorem mem_insertCmp (x : CourseRecord) (l : List CourseRecord)
    (z : CourseRecord) : z ∈ insertCmp x l ↔ z = x ∨ z ∈ l := by
  induction l with
  | nil => simp [insertCmp]
  | cons y ys ih =>
    unfold insertCmp
    split_ifs
    · simp [List.mem_cons]
    · simp only [List.mem_cons, ih]
      tauto

theorem pairwise_insertCmp (x : CourseRecord) (l : List CourseRecord)
    (hl : l.Pairwise fun a b => cmpSections a b ≤ 0) :
    (insertCmp x l).Pairwise (fun a b => cmpSections a b ≤ 0) := by
  induction l with
  | nil => simp [insertCmp]
  | cons y ys ih =>
    rcases List.pairwise_cons.1 hl with ⟨hy, hys⟩
    unfold insertCmp
    split_ifs with hxy
    · refine List.pairwise_cons.2 ⟨?_, hl⟩
      intro z hz
      rcases List.mem_cons.1 hz with rfl | hz'
      · exact hxy
      · exact cmpSections_le_trans hxy (hy z hz')
    · have hyx : cmpSections y x ≤ 0 :=
        (cmpSections_le_total x y).resolve_left hxy
      refine List.pairwise_cons.2 ⟨?_, ih hys⟩
      intro z hz
      rcases (mem_insertCmp x ys z).1 hz with rfl | hz'
      · exact hyx
      · exact hy z hz'

theorem sortSections_pairwise (l : List CourseRecord) :
    (sortSections l).Pairwise (fun a b => cmpSections a b ≤ 0) := by
  induction l with
  | nil => exact List.Pairwise.nil
  | cons x xs ih => exact pairwise_insertCmp x (sortSections xs) ih

theorem sectionsForTitle_pairwise (records : List CourseRecord)
    (includeClosed : Bool) (key : String) :
    (sectionsForTitle records includeClosed key).Pairwise
      (fun a b => cmpSections a b ≤ 0) :=
  sortSections_pairwise _

/-- Membership in the pairwise conflict scan: a CRN is reported exactly
when it labels one side of some ordered pair of distinct positions of the
block list whose blocks overlap. -/
theorem mem_pairConflicts (l : List Block) (c : String) :
    c ∈ pairConflicts l ↔
      ∃ a b, List.Sublist [a, b] l ∧ overlap a b = true ∧
        (c = a.crn ∨ c = b.crn) := by
  induction l with
  | nil =>
    rw [pairConflicts]
    simp only [List.not_mem_nil, false_iff]
    rintro ⟨a, b, hs, -, -⟩
    cases List.sublist_nil.1 hs
  | cons x rest ih =>
    rw [pairConflicts]
    rw [List.mem_append, List.mem_flatMap, ih]
    constructor
    · rintro (⟨b, hb, hc⟩ | ⟨a, b, hs, hov, hc⟩)
      · rw [List.mem_filter] at hb
        have hc' : c = x.crn ∨ c = b.crn := by simpa using hc
        exact ⟨x, b, (List.singleton_sublist.2 hb.1).cons₂ _, hb.2, hc'⟩
      · exact ⟨a, b, hs.cons _, hov, hc⟩
    · rintro ⟨a, b, hs, hov, hc⟩
      cases hs with
      | cons _ hs' => exact Or.inr ⟨a, b, hs', hov, hc⟩
      | cons₂ _ hs' =>
        left
        refine ⟨b, List.mem_filter.2 ⟨List.singleton_sublist.1 hs', hov⟩, ?_⟩
        simpa using hc

theorem mem_updateSolution_of_ne (sol : Assignment) (title : String)
    (pick : CourseRecord) (p : String × CourseRecord) (hp : p ∈ sol)
    (hne : p.1 ≠ title) : p ∈ updateSolution sol title pick := by
  unfold updateSolution
  split_ifs with h
  · refine List.mem_map.2 ⟨p, hp, ?_⟩
    have hbeq : (p.1 == title) = false := beq_eq_false_iff_ne.2 hne
    rw [hbeq]
    rfl
  · exact List.mem_append_left _ hp

theorem self_mem_updateSolution (sol : Assignment) (title : String)
    (pick : CourseRecord) : (title, pick) ∈ updateSolution sol title pick := by
  unfold updateSolution
  split_ifs with h
  · obtain ⟨q, hq, hq2⟩ := List.any_eq_true.1 h
    refine List.mem_map.2 ⟨q, hq, ?_⟩
    simp [hq2]
  · exact List.mem_append_right _ (List.mem_singleton_self _)

theorem mem_updateSolution_cases (sol : Assignment) (title : String)
    (pick : CourseRecord) (p : String × CourseRecord)
    (hp : p ∈ updateSolution sol title pick) :
    (p ∈ sol ∧ p.1 ≠ title) ∨ p = (title, pick) := by
  unfold updateSolution at hp
  split_ifs at hp with h
  · obtain ⟨q, hq, hfq⟩ := List.mem_map.1 hp
    by_cases hq1 : (q.1 == title) = true
    · right
      rw [hq1] at hfq
      simp at hfq
      exact hfq.symm
    · left
      rw [Bool.not_eq_true] at hq1
      rw [hq1] at hfq
      simp at hfq
      subst hfq
      exact ⟨hq, beq_eq_false_iff_ne.1 hq1⟩
  · rcases List.mem_append.1 hp with hp' | hp'
    · left
      refine ⟨hp', ?_⟩
      rw [List.any_eq_true] at h
      push_neg at h
      have := h p hp'
      exact beq_eq_false_iff_ne.1 (Bool.not_eq_true _ ▸ this)
    · right
      exact List.mem_singleton.1 hp'

/-! Concrete fixtures for the witnesses, examples and counterexamples. -/

/-- A Monday-only meeting with the given raw begin/end time strings. -/
def monMeeting (b e : String) : MeetingTime :=
  { beginTime := some b
    endTime := some e
    monday := true
    tuesday := false
    wednesday := false
    thursday := false
    friday := false }

/-- An ordinary open section, Monday 09:00–09:50. -/
def secIntro : CourseRecord :=
  { courseReferenceNumber := "20001"
    subject := "CS"
    courseNumber := "102"
    courseTitle := "Intro"
    openSection := true
    seatsAvailable := some 10
    meetingsFaculty := [⟨some (monMeeting "0900" "0950")⟩] }

/-- A section whose own two meetings overlap each other. -/
def secDouble : CourseRecord :=
  { courseReferenceNumber := "20002"
    subject := "CS"
    courseNumber := "200"
    courseTitle := "Twice"
    openSection := true
    meetingsFaculty :=
      [⟨some (monMeeting "0900" "0950")⟩, ⟨some (monMeeting "0900" "0950")⟩] }

/-- An open section with no meeting entries at all (zero blocks). -/
def secNoTimes : CourseRecord :=
  { courseReferenceNumber := "20003"
    subject := "CS"
    courseNumber := "300"
    courseTitle := "Huge"
    openSection := true
    meetingsFaculty := [] }

/-- A section of the same title whose parsed start, 120000 minutes, lies
above the 99999 sentinel. -/
def secLate : CourseRecord :=
  { courseReferenceNumber := "20004"
    subject := "CS"
    courseNumber := "300"
    courseTitle := "Huge"
    openSection := true
    meetingsFaculty := [⟨some (monMeeting "200000" "200100")⟩] }

/-- Ordering example: open, 5 seats, start 09:00. -/
def secOpen5 : CourseRecord :=
  { courseReferenceNumber := "30001"
    subject := "CS"
    courseNumber := "400"
    courseTitle := "Order"
    openSection := true
    seatsAvailable := some 5
    meetingsFaculty := [⟨some (monMeeting "0900" "0950")⟩] }

/-- Ordering example: closed, 9 seats, start 08:00. -/
def secClosed9 : CourseRecord :=
  { courseReferenceNumber := "30002"
    subject := "CS"
    courseNumber := "400"
    courseTitle := "Order"
    openSection := false
    seatsAvailable := some 9
    meetingsFaculty := [⟨some (monMeeting "0800" "0850")⟩] }

/-- Ordering example: open, 3 seats, start 08:00. -/
def secOpen3 : CourseRecord :=
  { courseReferenceNumber := "30003"
    subject := "CS"
    courseNumber := "400"
    courseTitle := "Order"
    openSection := true
    seatsAvailable := some 3
    meetingsFaculty := [⟨some (monMeeting "0800" "0850")⟩] }

/-- Override example: the open section currently assigned. -/
def secOvOpen : CourseRecord :=
  { courseReferenceNumber := "40001"
    subject := "CS"
    courseNumber := "500"
    courseTitle := "Override"
    openSection := true
    meetingsFaculty := [⟨some (monMeeting "0900" "0950")⟩] }

/-- Override example: a closed section of the same title. -/
def secOvClosed : CourseRecord :=
  { courseReferenceNumber := "40002"
    subject := "CS"
    courseNumber := "500"
    courseTitle := "Override"
    openSection := false
    meetingsFaculty := [⟨some (monMeeting "1000" "1050")⟩] }

/-- Override example state: closed sections excluded, the open section
assigned. -/
def stOverride : AppState :=
  { records := [secOvOpen, secOvClosed]
    includeClosed := false
    solution := some [(titleKey secOvOpen, secOvOpen)]
    conflictCRNs := []
    status := "" }

/-- A section with an out-of-range minute part: begin "0999" parses to
639, end "1099" to 699. -/
def secOdd : CourseRecord :=
  { courseReferenceNumber := "50001"
    subject := "CS"
    courseNumber := "600"
    courseTitle := "Odd"
    openSection := true
    meetingsFaculty := [⟨some (monMeeting "0999" "1099")⟩] }

/-- A probe section, Monday 10:30–11:00, overlapping `secOdd`'s 639–699
block. -/
def secProbe : CourseRecord :=
  { courseReferenceNumber := "50002"
    subject := "CS"
    courseNumber := "601"
    courseTitle := "Probe"
    openSection := true
    meetingsFaculty := [⟨some (monMeeting "1030" "1100")⟩] }

/-- A chain requires-map: B requires A, C requires B (edges A→B, B→C). -/
def gChain : List (String × List String) := [("B", ["A"]), ("C", ["B"])]

/-- A cyclic requires-map: A requires B and B requires A. -/
def gCycle : List (String × List String) := [("A", ["B"]), ("B", ["A"])]

theorem anc_gChain_eval : allPrereqAncestors gChain "C" = ["B", "A"] := by
  simp [allPrereqAncestors, gChain, adjOf, walk, keysOf]

theorem dep_gChain_eval : allDependents gChain "A" = ["B", "C"] := by
  have h : dependentsAdj gChain = [("A", ["B"]), ("B", ["C"])] := by decide
  unfold allDependents
  rw [h]
  simp [adjOf, walk, keysOf]

theorem anc_gCycle_eval : allPrereqAncestors gCycle "A" = ["B", "A"] := by
  simp [allPrereqAncestors, gCycle, adjOf, walk, keysOf]

theorem dep_gCycle_eval : allDependents gCycle "A" = ["B", "A"] := by
  have h : dependentsAdj gCycle = [("B", ["A"]), ("A", ["B"])] := by decide
  unfold allDependents
  rw [h]
  simp [adjOf, walk, keysOf]

theorem mem_indirectPrereqs (g : List (String × List String)) (q c : String) :
    c ∈ indirectPrereqs g q ↔
      c ∈ allPrereqAncestors g q ∧ c ∉ directPrereqs g q := by
  simp only [indirectPrereqs, List.mem_filter, Bool.not_eq_true',
    contains_eq_false_iff]

theorem mem_indirectDependents (g : List (String × List String)) (q c : String) :
    c ∈ indirectDependents g q ↔
      c ∈ allDependents g q ∧ c ∉ directDependents g q := by
  simp only [indirectDependents, List.mem_filter, Bool.not_eq_true',
    contains_eq_false_iff]

theorem indirect_gChain_eval : indirectPrereqs gChain "C" = ["A"] := by
  unfold indirectPrereqs
  rw [anc_gChain_eval]
  decide

theorem indirectDep_gChain_eval : indirectDependents gChain "A" = ["C"] := by
  unfold indirectDependents
  rw [dep_gChain_eval]
  decide

/-! The claims. -/

/-- C1, amended: a section with no parseable meeting times contributes
zero blocks, never conflicts (compatible with anything, droppable from
conflict detection), but is NOT assignable by the solver: the search
skips block-free candidates, so a title whose candidates all lack blocks
makes the search fail. -/
theorem claim_C1_blockless_sections :
    (∀ rec : CourseRecord,
      (∀ m ∈ rec.meetingsFaculty, ∀ mt, m.meetingTime = some mt →
        timeStrToMinutes mt.beginTime = none ∨ timeStrToMinutes mt.endTime = none) →
      blocksForSection rec = []) ∧
    (∀ cb : List Block, isCompatible cb [] = true) ∧
    (∀ (pre post : List CourseRecord) (rec : CourseRecord),
      blocksForSection rec = [] →
      findConflicts (pre ++ rec :: post) = findConflicts (pre ++ post)) ∧
    (∀ (P : String → List CourseRecord) (t : String) (rest : List String)
      (cb : List Block), (∀ sec ∈ P t, blocksForSection sec = []) →
      dfs P (t :: rest) cb = none) :=
  ⟨blocksForSection_eq_nil_of_unparseable, fun _ => rfl,
    findConflicts_drop_blockless, dfs_none_of_all_blockless⟩

/-- C1, counterexample to the claim as stated: a requested title with a
non-empty candidate list — one open section with no meeting times, so no
time incompatibility can exist — still makes the solver report
infeasibility, precisely because its candidate lacks blocks. -/
theorem claim_C1_counterexample :
    [secNoTimes] ≠ [] ∧ blocksForSection secNoTimes = [] ∧
    generateSchedule (fun _ => [secNoTimes]) ["CS300 - Huge"] = .infeasible := by
  decide

/-- C2, amended: with every requested title offering a non-empty candidate
list, the solver yields either an explicit infeasibility signal or a
complete assignment — one candidate section per title in order, each with
at least one block, the blocks of distinct chosen sections pairwise
compatible (blocks within one section are not checked against each
other). -/
theorem claim_C2_solver_complete_or_infeasible :
    ∀ (P : String → List CourseRecord) (ts : List String),
      (∀ t ∈ ts, P t ≠ []) → ts ≠ [] →
      generateSchedule P ts = .infeasible ∨
      ∃ asn, generateSchedule P ts =
          .success asn (findConflicts (asn.map Prod.snd)) ∧
        asn.map Prod.fst = ts ∧
        (∀ p ∈ asn, p.2 ∈ P p.1 ∧ blocksForSection p.2 ≠ []) ∧
        (asn.map fun p => blocksForSection p.2).Pairwise
          (fun xs ys => isCompatible xs ys = true) := by
  intro P ts hne hts
  have hfilter : (ts.filter fun t => !(P t).isEmpty) = ts := by
    apply List.filter_eq_self.2
    intro t ht
    cases hpt : (P t).isEmpty
    · rfl
    · exact absurd (List.isEmpty_iff.1 hpt) (hne t ht)
  have hts' : ¬ ts.isEmpty = true := fun h => hts (List.isEmpty_iff.1 h)
  have hgen : generateSchedule P ts =
      (match dfs P ts [] with
        | some asn => .success asn (findConflicts (asn.map Prod.snd))
        | none => .infeasible) := by
    simp only [generateSchedule]
    rw [hfilter, if_neg hts']
  cases hdfs : dfs P ts [] with
  | none =>
    left
    rw [hgen, hdfs]
  | some asn =>
    right
    obtain ⟨h1, h2, -, h4⟩ := dfs_sound P ts [] asn hdfs
    exact ⟨asn, by rw [hgen, hdfs], h1, h2, h4⟩

/-- C2, witness: the solver run on one title with one ordinary candidate. -/
theorem claim_C2_solver_witness :
    generateSchedule (fun _ => [secIntro]) ["CS102 - Intro"] = .infeasible ∨
    ∃ asn, generateSchedule (fun _ => [secIntro]) ["CS102 - Intro"] =
        .success asn (findConflicts (asn.map Prod.snd)) ∧
      asn.map Prod.fst = ["CS102 - Intro"] ∧
      (∀ p ∈ asn, p.2 ∈ (fun _ : String => [secIntro]) p.1 ∧
        blocksForSection p.2 ≠ []) ∧
      (asn.map fun p => blocksForSection p.2).Pairwise
        (fun xs ys => isCompatible xs ys = true) :=
  claim_C2_solver_complete_or_infeasible (fun _ => [secIntro])
    ["CS102 - Intro"] (by decide) (by decide)

/-- C2, counterexample to the claim as stated: a section whose own two
meetings overlap is accepted (its blocks are only tested against other
titles' blocks), so the returned assignment's combined block list is not
pairwise non-overlapping — the code itself then reports the conflict. -/
theorem claim_C2_counterexample :
    generateSchedule (fun _ => [secDouble]) ["CS200 - Twice"] =
      .success [("CS200 - Twice", secDouble)] (findConflicts [secDouble]) ∧
    ¬ (([("CS200 - Twice", secDouble)].flatMap
        (fun p : String × CourseRecord => blocksForSection p.2)).Pairwise
        (fun a b => overlap a b = false)) ∧
    "20002" ∈ findConflicts [secDouble] := by
  decide

/-- The overlap test, characterized. -/
theorem overlap_eq_true_iff (a b : Block) :
    overlap a b = true ↔
      a.day = b.day ∧ a.start < b.«end» ∧ b.start < a.«end» := by
  simp [overlap, and_assoc]

/-- C3: the conflict detector reports exactly the CRNs owning a block of
some overlapping ordered pair of the flattened block list; overlap is
same-day strict half-open intersection, so touching endpoints never
conflict. -/
theorem claim_C3_conflict_detector :
    (∀ (sol : List CourseRecord) (c : String),
      c ∈ findConflicts sol ↔
        ∃ a b, List.Sublist [a, b] (sol.flatMap blocksForSection) ∧
          overlap a b = true ∧ (c = a.crn ∨ c = b.crn)) ∧
    (∀ a b : Block, overlap a b = true ↔
      a.day = b.day ∧ a.start < b.«end» ∧ b.start < a.«end») ∧
    (∀ a b : Block, a.«end» = b.start ∨ b.«end» = a.start →
      overlap a b = false) := by
  refine ⟨fun sol c => mem_pairConflicts _ _, overlap_eq_true_iff, ?_⟩
  intro a b h
  rw [Bool.eq_false_iff]
  intro hov
  obtain ⟨-, h1, h2⟩ := overlap_eq_true_iff a b |>.1 hov
  rcases h with h | h <;> omega

/-- C4, amended: every candidate list is sorted by the comparator, which
realizes the spec's order — open before closed, then more seats (missing
as −1), then earlier minimum block start — except that a block-less
section sorts with the concrete sentinel 99999 rather than a true maximum;
the spec's three-section example orders exactly as stated. -/
theorem claim_C4_candidate_ordering :
    (∀ (records : List CourseRecord) (ic : Bool) (key : String),
      (sectionsForTitle records ic key).Pairwise
        fun a b => cmpSections a b ≤ 0) ∧
    (∀ a b : CourseRecord, cmpSections a b ≤ 0 ↔ specCandidateLe a b) ∧
    sectionsForTitle [secOpen5, secClosed9, secOpen3] true (titleKey secOpen5) =
      [secOpen5, secOpen3, secClosed9] :=
  ⟨sectionsForTitle_pairwise, cmpSections_le_iff, by decide⟩

/-- C4, counterexample to the claim as stated: two sections of one title,
tied on the open flag and seats; the block-less one does not sort last —
its 99999 sentinel sorts before a section whose parsed earliest start is
120000. -/
theorem claim_C4_counterexample :
    sectionsForTitle [secLate, secNoTimes] true (titleKey secNoTimes) =
      [secNoTimes, secLate] ∧
    blocksForSection secNoTimes = [] ∧ blocksForSection secLate ≠ [] ∧
    secNoTimes.openSection = secLate.openSection ∧
    seatsOrNeg secNoTimes = seatsOrNeg secLate ∧
    99999 < minStart secLate := by
  decide

/-- C5, amended: the override looks the CRN up in the title's candidate
list under the CURRENT open/closed filter; an absent CRN (including one
filtered out as closed) makes the whole operation a no-op; a found CRN
replaces exactly that title's entry and recomputes the conflict set from
scratch over the full resulting assignment.  The last conjunct shows the
replace branch on a concrete state. -/
theorem claim_C5_manual_override :
    (∀ (st : AppState) (title crn : String),
      ((sectionsForTitle st.records st.includeClosed title).find?
          (fun s => s.courseReferenceNumber == crn) = none →
        overrideSection st title crn = st) ∧
      (∀ sol pick, st.solution = some sol →
        (sectionsForTitle st.records st.includeClosed title).find?
          (fun s => s.courseReferenceNumber == crn) = some pick →
        (overrideSection st title crn).records = st.records ∧
        (overrideSection st title crn).solution =
          some (updateSolution sol title pick) ∧
        (overrideSection st title crn).conflictCRNs =
          findConflicts ((updateSolution sol title pick).map Prod.snd) ∧
        (∀ p ∈ sol, p.1 ≠ title → p ∈ updateSolution sol title pick) ∧
        (title, pick) ∈ updateSolution sol title pick ∧
        (∀ p ∈ updateSolution sol title pick,
          (p ∈ sol ∧ p.1 ≠ title) ∨ p = (title, pick)))) ∧
    (overrideSection { stOverride with includeClosed := true }
        (titleKey secOvOpen) "40002").solution =
      some [(titleKey secOvOpen, secOvClosed)] := by
  refine ⟨?_, by decide⟩
  intro st title crn
  constructor
  · intro hnone
    cases hsol : st.solution with
    | none => simp [overrideSection, hsol]
    | some sol => simp [overrideSection, hsol, hnone]
  · intro sol pick hsol hfind
    refine ⟨?_, ?_, ?_, ?_, ?_, ?_⟩
    · simp [overrideSection, hsol, hfind]
    · simp [overrideSection, hsol, hfind]
    · simp [overrideSection, hsol, hfind]
    · exact fun p hp hne => mem_updateSolution_of_ne sol title pick p hp hne
    · exact self_mem_updateSolution sol title pick
    · exact fun p hp => mem_updateSolution_cases sol title pick p hp

/-- C5, counterexample to the claim as stated: the target CRN names a
closed section of the title — present among the title's sections when
closed ones are included — yet with the filter excluding closed sections
the override is a no-op, because the lookup does NOT ignore the filter;
flipping the flag makes the very same override take effect. -/
theorem claim_C5_counterexample :
    overrideSection stOverride (titleKey secOvOpen) "40002" = stOverride ∧
    secOvClosed ∈ sectionsForTitle stOverride.records true (titleKey secOvOpen) ∧
    secOvClosed.courseReferenceNumber = "40002" ∧
    overrideSection { stOverride with includeClosed := true }
        (titleKey secOvOpen) "40002" ≠
      { stOverride with includeClosed := true } := by
  decide

/-- C6: direct prerequisites are the requires-map adjacency of the query
(empty when absent); the transitive ancestor set holds exactly the codes
reachable from the direct prerequisites along requires-edges; the
indirect set is the transitive set minus the direct set; symmetrically
for dependents over the reverse adjacency; and the A→B→C chain example
behaves as stated. -/
theorem claim_C6_graph_queries :
    (∀ (g : List (String × List String)) (q c : String),
      c ∈ directPrereqs g q ↔ c ∈ adjOf g q) ∧
    (∀ (g : List (String × List String)) (q : String),
      q ∉ keysOf g → directPrereqs g q = []) ∧
    (∀ (g : List (String × List String)) (q c : String),
      c ∈ allPrereqAncestors g q ↔
        ∃ d, d ∈ adjOf g q ∧ ReachesFrom g d c) ∧
    (∀ (g : List (String × List String)) (q c : String),
      c ∈ indirectPrereqs g q ↔
        c ∈ allPrereqAncestors g q ∧ c ∉ directPrereqs g q) ∧
    (∀ (g : List (String × List String)) (q c : String),
      c ∈ directDependents g q ↔ c ∈ adjOf (dependentsAdj g) q) ∧
    (∀ (g : List (String × List String)) (q c : String),
      c ∈ allDependents g q ↔
        ∃ d, d ∈ adjOf (dependentsAdj g) q ∧
          ReachesFrom (dependentsAdj g) d c) ∧
    (∀ (g : List (String × List String)) (q c : String),
      c ∈ indirectDependents g q ↔
        c ∈ allDependents g q ∧ c ∉ directDependents g q) ∧
    directPrereqs gChain "C" = ["B"] ∧
    indirectPrereqs gChain "C" = ["A"] ∧
    directDependents gChain "A" = ["B"] ∧
    indirectDependents gChain "A" = ["C"] := by
  refine ⟨fun g q c => mem_setOfList _ _, ?_,
    mem_allPrereqAncestors, mem_indirectPrereqs,
    fun g q c => mem_setOfList _ _, mem_allDependents, mem_indirectDependents,
    by decide, indirect_gChain_eval, by decide, indirectDep_gChain_eval⟩
  intro g q h
  rw [directPrereqs, adjOf_eq_nil_of_not_mem_keys h]
  rfl

/-- C7: both traversals are total functions (they are defined here by
well-founded recursion on the unvisited keys, which is the termination
argument for the source's visited-set-guarded loops), their results never
repeat a node, and on the two-cycle A↔B each traversal from A reports B —
and A itself — exactly once. -/
theorem claim_C7_traversal_terminates_no_dup :
    (∀ (g : List (String × List String)) (q : String),
      (allPrereqAncestors g q).Nodup ∧ (allDependents g q).Nodup) ∧
    (∀ (g : List (String × List String)) (q c : String),
      (∃ d, d ∈ adjOf g q ∧ ReachesFrom g d c) →
        c ∈ allPrereqAncestors g q) ∧
    (∀ (g : List (String × List String)) (q c : String),
      (∃ d, d ∈ adjOf (dependentsAdj g) q ∧
          ReachesFrom (dependentsAdj g) d c) →
        c ∈ allDependents g q) ∧
    allPrereqAncestors gCycle "A" = ["B", "A"] ∧
    allDependents gCycle "A" = ["B", "A"] ∧
    (allPrereqAncestors gCycle "A").count "B" = 1 ∧
    (allDependents gCycle "A").count "B" = 1 := by
  refine ⟨fun g q => ⟨walk_nodup _ _ _ List.nodup_nil,
      walk_nodup _ _ _ List.nodup_nil⟩,
    fun g q c h => (mem_allPrereqAncestors g q c).2 h,
    fun g q c h => (mem_allDependents g q c).2 h,
    anc_gCycle_eval, dep_gCycle_eval, ?_, ?_⟩
  · rw [anc_gCycle_eval]
    decide
  · rw [dep_gCycle_eval]
    decide

/-- C8: an upload with no usable records (empty or of an unexpected shape)
changes nothing but the status line, which becomes the distinct "no
records" signal — never the signal of a successful load — and an empty
record list yields zero title keys. -/
theorem claim_C8_empty_ingest :
    (∀ (st : AppState) (raw : RawJson), extractRecords raw = [] →
      (ingestJson st raw).records = st.records ∧
      (ingestJson st raw).solution = st.solution ∧
      (ingestJson st raw).conflictCRNs = st.conflictCRNs ∧
      (ingestJson st raw).status = "JSON parsed, but no records found.") ∧
    (∀ (st : AppState) (raw : RawJson), extractRecords raw ≠ [] →
      (ingestJson st raw).status ≠ "JSON parsed, but no records found.") ∧
    (∀ ic : Bool, titles [] ic = []) := by
  refine ⟨?_, ?_, ?_⟩
  · intro st raw h
    refine ⟨?_, ?_, ?_, ?_⟩ <;> simp [ingestJson, h]
  · intro st raw h
    have hlen : ((extractRecords raw).length == 0) = false := by
      rw [beq_eq_false_iff_ne]
      intro hc
      exact h (List.length_eq_zero.1 hc)
    simp only [ingestJson, hlen, Bool.false_eq_true, if_false]
    intro heq
    have hdata := congrArg String.data heq
    rw [String.data_append, String.data_append] at hdata
    rw [show "Loaded ".data = 'L' :: "oaded ".data from rfl] at hdata
    rw [show "JSON parsed, but no records found.".data =
      'J' :: "SON parsed, but no records found.".data from rfl] at hdata
    rw [List.cons_append, List.cons_append] at hdata
    injection hdata with hchar
    exact absurd hchar (by decide)
  · intro ic
    simp [titles, setOfList, List.mergeSort_nil]

/-- C9: the traversals do not special-case the starting node — a query on
a cycle contains itself in its own transitive set, in both directions;
concretely so for A on the A↔B cycle. -/
theorem claim_C9_cycle_self_membership :
    (∀ (g : List (String × List String)) (q : String),
      (∃ d, d ∈ adjOf g q ∧ ReachesFrom g d q) →
        q ∈ allPrereqAncestors g q) ∧
    (∀ (g : List (String × List String)) (q : String),
      (∃ d, d ∈ adjOf (dependentsAdj g) q ∧
          ReachesFrom (dependentsAdj g) d q) →
        q ∈ allDependents g q) ∧
    "A" ∈ allPrereqAncestors gCycle "A" ∧
    "A" ∈ allDependents gCycle "A" := by
  refine ⟨fun g q h => (mem_allPrereqAncestors g q q).2 h,
    fun g q h => (mem_allDependents g q q).2 h, ?_, ?_⟩
  · rw [anc_gCycle_eval]
    decide
  · rw [dep_gCycle_eval]
    decide

/-- C10: the time parser does no range validation — any string of length
at least 3 whose last-two-character suffix and remaining prefix both
parse as integers yields `prefix * 60 + suffix`, so "0999" gives 639; the
unvalidated minutes flow into blocks and the overlap test unchanged. -/
theorem claim_C10_no_range_validation :
    (∀ (s : String) (h m : Int), 3 ≤ s.length →
      parseIntJS (slicePrefix s) = some h →
      parseIntJS (sliceLast2 s) = some m →
      timeStrToMinutes (some s) = some (h * 60 + m)) ∧
    timeStrToMinutes (some "0999") = some 639 ∧
    (blocksForSection secOdd).map (fun b => (b.start, b.«end»)) =
      [(639, 699)] ∧
    "50001" ∈ findConflicts [secOdd, secProbe] := by
  refine ⟨?_, by decide, by decide, by decide⟩
  intro s h m hlen hph hpm
  show (if s.length < 3 then none
    else
      match parseIntJS (slicePrefix s), parseIntJS (sliceLast2 s) with
      | some hh, some mm => some (hh * 60 + mm)
      | _, _ => none) = some (h * 60 + m)
  rw [if_neg (by omega : ¬ s.length < 3), hph, hpm]

end CourseSched
